/-
Verification of the fart computational-geometry kernel.

Shallow embedding of the geometry crates (fart-2d-geom, fart-aabb,
partial-min-max) with the numeric type T instantiated at Int (modelling
i64; none of the inputs used here approach overflow).  Every definition
mirrors the corresponding Rust function; comments name the source file
and function each definition was translated from.
-/
import Mathlib

namespace Fart

/-- A 2d point, modelling euclid TypedPoint2D with Int coordinates.
The phantom unit parameter U carries no data and is dropped. -/
structure Pt where
  x : Int
  y : Int
deriving DecidableEq, Repr

instance : Inhabited Pt := ⟨⟨0, 0⟩⟩

/-- Doubled signed area of the triangle (a, b, c).
Source: crates/2d-geom/src/lib.rs, fn area2. -/
def area2 (a b c : Pt) : Int :=
  (b.x - a.x) * (c.y - a.y) - (c.x - a.x) * (b.y - a.y)

/-- Source: crates/partial-min-max/src/lib.rs, fn min, at type Int:
if a < b then a else b. -/
def pmin (a b : Int) : Int := if a < b then a else b

/-- Source: crates/partial-min-max/src/lib.rs, fn max, at type Int:
if a > b then a else b. -/
def pmax (a b : Int) : Int := if a > b then a else b

/-
Generic model of the partial-min-max crate over an arbitrary partially
ordered type, for the claim about incomparable operands.  A PartialOrd
instance is modelled by its partial_cmp function pcmp; the Rust
expression a < b is (pcmp a b = some .lt) and a > b is
(pcmp a b = some .gt).
-/

/-- Source: crates/partial-min-max/src/lib.rs, fn min (generic form). -/
def partialMin {α : Type} (pcmp : α → α → Option Ordering) (a b : α) : α :=
  if pcmp a b = some Ordering.lt then a else b

/-- Source: crates/partial-min-max/src/lib.rs, fn max (generic form). -/
def partialMax {α : Type} (pcmp : α → α → Option Ordering) (a b : α) : α :=
  if pcmp a b = some Ordering.gt then a else b

/-- Source: crates/2d-geom/src/line.rs, enum RelativeDirection. -/
inductive RelativeDirection where
  | left
  | collinear
  | right
deriving DecidableEq, Repr

/-- Source: crates/2d-geom/src/line.rs, struct Line. -/
structure Line where
  a : Pt
  b : Pt
deriving DecidableEq, Repr

/-- Source: crates/2d-geom/src/line.rs, fn line. -/
def line (a b : Pt) : Line := ⟨a, b⟩

/-- Source: crates/2d-geom/src/line.rs, Line::relative_direction_of.
NoMorePartial comparison of the determinant against zero is, at Int,
the total-order compare. -/
def Line.relativeDirectionOf (l : Line) (p : Pt) : RelativeDirection :=
  match compare (area2 l.a l.b p) 0 with
  | Ordering.gt => RelativeDirection.left
  | Ordering.eq => RelativeDirection.collinear
  | Ordering.lt => RelativeDirection.right

/-- Source: crates/2d-geom/src/line.rs, Line::is_left. -/
def Line.isLeft (l : Line) (p : Pt) : Bool :=
  l.relativeDirectionOf p = RelativeDirection.left

/-- Source: crates/2d-geom/src/line.rs, Line::is_left_or_collinear. -/
def Line.isLeftOrCollinear (l : Line) (p : Pt) : Bool :=
  match l.relativeDirectionOf p with
  | RelativeDirection.left => true
  | RelativeDirection.collinear => true
  | RelativeDirection.right => false

/-- Source: crates/2d-geom/src/line.rs, Line::is_collinear. -/
def Line.isCollinear (l : Line) (p : Pt) : Bool :=
  l.relativeDirectionOf p = RelativeDirection.collinear

/-- Source: crates/2d-geom/src/line.rs, Line::is_right. -/
def Line.isRight (l : Line) (p : Pt) : Bool :=
  l.relativeDirectionOf p = RelativeDirection.right

/-- Source: crates/2d-geom/src/line.rs, Line::is_right_or_collinear. -/
def Line.isRightOrCollinear (l : Line) (p : Pt) : Bool :=
  match l.relativeDirectionOf p with
  | RelativeDirection.right => true
  | RelativeDirection.collinear => true
  | RelativeDirection.left => false

/-- Source: crates/2d-geom/src/line.rs, Line::is_on. -/
def Line.isOn (l : Line) (p : Pt) : Bool :=
  if ¬ l.isCollinear p then false
  else if l.a.x = l.b.x then
    decide (pmin l.a.y l.b.y ≤ p.y) && decide (p.y ≤ pmax l.a.y l.b.y)
  else
    decide (pmin l.a.x l.b.x ≤ p.x) && decide (p.x ≤ pmax l.a.x l.b.x)

/-- Source: crates/2d-geom/src/line.rs, Line::intersects (proper
intersection). -/
def Line.intersects (l : Line) (other : Line) : Bool :=
  if l.isCollinear other.a || l.isCollinear other.b
      || other.isCollinear l.a || other.isCollinear l.b then
    false
  else
    (l.isLeft other.a ^^ l.isLeft other.b)
      && (other.isLeft l.a ^^ other.isLeft l.b)

/-- Source: crates/2d-geom/src/line.rs, Line::improperly_intersects. -/
def Line.improperlyIntersects (l : Line) (other : Line) : Bool :=
  l.intersects other || l.isOn other.a || l.isOn other.b
    || other.isOn l.a || other.isOn l.b

/-
Polygon operations.  A polygon value is its vertex list; Polygon::new
is modelled as an Option-returning constructor where none stands for
the assertion failure (panic).
-/

/-- Index pairs (0..n).zip((1..n).chain(Some(0))): the wrapping edge
index pairs (0,1), (1,2), ..., (n-2,n-1), (n-1,0); empty when n = 0.
Source: the zip pattern shared by is_counter_clockwise
(crates/2d-geom/src/lib.rs) and internal_or_external_diagonal
(crates/2d-geom/src/polygon.rs). -/
def wrapPairs (n : Nat) : List (Nat × Nat) :=
  (List.range n).zip ((List.range' 1 (n - 1)) ++ [0])

/-- The edge sum whose sign decides winding order.
Source: crates/2d-geom/src/lib.rs, fn is_counter_clockwise (the sum
of (b.x - a.x) * (b.y + a.y) over wrapping edges). -/
def ccwSum (vs : List Pt) : Int :=
  ((wrapPairs vs.length).map (fun ij =>
    let a := vs.getD ij.1 default
    let b := vs.getD ij.2 default
    (b.x - a.x) * (b.y + a.y))).sum

/-- Source: crates/2d-geom/src/lib.rs, fn is_counter_clockwise. -/
def isCounterClockwise (vs : List Pt) : Bool :=
  decide (ccwSum vs ≤ 0)

/-- Source: crates/2d-geom/src/polygon.rs, Polygon::new.  The two
assertions (len >= 3 and counter-clockwise) panic on failure; a panic
is modelled as none. -/
def polygonNew (vs : List Pt) : Option (List Pt) :=
  if 3 ≤ vs.length ∧ isCounterClockwise vs then some vs else none

/-- Source: crates/2d-geom/src/polygon.rs, Polygon::signed_double_area:
the fan sum over i in [1, n-2] of area2(v0, v_i, v_i+1), here written
by structural recursion over the tail. -/
def fanFrom (p : Pt) : List Pt → Int
  | b :: c :: rest => area2 p b c + fanFrom p (c :: rest)
  | _ => 0

/-- Source: crates/2d-geom/src/polygon.rs, Polygon::signed_double_area. -/
def signedDoubleArea (vs : List Pt) : Int :=
  match vs with
  | [] => 0
  | p :: rest => fanFrom p rest

/-- Source: crates/2d-geom/src/polygon.rs, Polygon::area:
(signed_double_area / two).abs(), with the truncating (toward zero)
division of Rust integers, which at Int is Int.tdiv. -/
def polygonArea (vs : List Pt) : Int :=
  abs (Int.tdiv (signedDoubleArea vs) 2)

/-- Source: crates/2d-geom/src/polygon.rs, Polygon::next (wrapping
successor index; the assertion i < len is a precondition at all call
sites below). -/
def nextIdx (n i : Nat) : Nat :=
  if i + 1 = n then 0 else i + 1

/-- Source: crates/2d-geom/src/polygon.rs, Polygon::prev (wrapping
predecessor index). -/
def prevIdx (n i : Nat) : Nat :=
  if i = 0 then n - 1 else i - 1

/-- Source: crates/2d-geom/src/polygon.rs, Polygon::in_cone. -/
def inCone (vs : List Pt) (a b : Nat) : Bool :=
  let aPrev := vs.getD (prevIdx vs.length a) default
  let aNext := vs.getD (nextIdx vs.length a) default
  let av := vs.getD a default
  let bv := vs.getD b default
  if (line av aNext).isLeft aPrev then
    (line av bv).isLeft aPrev && (line av bv).isRight aNext
  else
    ¬ ((line av bv).isLeftOrCollinear aNext
        && (line av bv).isRightOrCollinear aPrev)

/-- Source: crates/2d-geom/src/polygon.rs,
Polygon::internal_or_external_diagonal. -/
def internalOrExternalDiagonal (vs : List Pt) (a b : Nat) : Bool :=
  let l := line (vs.getD a default) (vs.getD b default)
  (wrapPairs vs.length).all fun ij =>
    if ij.1 = a || ij.1 = b || ij.2 = a || ij.2 = b then true
    else
      ¬ l.improperlyIntersects
          (line (vs.getD ij.1 default) (vs.getD ij.2 default))

/-- Source: crates/2d-geom/src/polygon.rs, Polygon::is_diagonal. -/
def isDiagonal (vs : List Pt) (a b : Nat) : Bool :=
  inCone vs a b && inCone vs b a && internalOrExternalDiagonal vs a b

/-- A triangle reported to the triangulation callback. -/
abbrev Tri := Pt × Pt × Pt

/-- Doubled signed area of a reported triangle. -/
def triArea2 (t : Tri) : Int := area2 t.1 t.2.1 t.2.2

/-- One iteration of the collinear pre-pass of Polygon::triangulate at
index i: if the vertices prev(i), i, next(i) are collinear, report the
triangle and remove vertex i.
Source: crates/2d-geom/src/polygon.rs, Polygon::triangulate (first
loop body). -/
def prePassStep (i : Nat) (vs : List Pt) (acc : List Tri) :
    List Pt × List Tri :=
  let p := vs.getD (prevIdx vs.length i) default
  let c := vs.getD i default
  let nx := vs.getD (nextIdx vs.length i) default
  if (line p c).isCollinear nx then
    (vs.eraseIdx i, acc ++ [(p, c, nx)])
  else
    (vs, acc)

/-- The collinear pre-pass of Polygon::triangulate: indices are visited
in decreasing order i, i-1, ..., 0, stopping early once only 3 vertices
remain.  Source: crates/2d-geom/src/polygon.rs, Polygon::triangulate
(for i in (0..self.len()).rev() loop). -/
def prePassFrom : Nat → List Pt → List Tri → List Pt × List Tri
  | 0, vs, acc =>
    if vs.length = 3 then (vs, acc) else prePassStep 0 vs acc
  | i + 1, vs, acc =>
    if vs.length = 3 then (vs, acc)
    else
      let r := prePassStep (i + 1) vs acc
      prePassFrom i r.1 r.2

/-- Index of the last true entry, if any: Iterator::rposition on a
boolean vector.  Source: the ears.iter().rposition(|e| *e) call in
Polygon::triangulate. -/
def rpos : List Bool → Option Nat
  | [] => none
  | b :: t =>
    match rpos t with
    | some i => some (i + 1)
    | none => if b then some 0 else none

/-- The ear-cutting loop of Polygon::triangulate: while more than 3
vertices remain, find the highest-index ear, report its triangle,
update the two adjacent ear flags, and remove the ear vertex.  The
panic when no ear exists is modelled as none.  The loop is written with
an explicit fuel counter so that it is structurally recursive; every
iteration removes one entry of ears (rpos always returns an in-bounds
index), so the entry point's fuel of ears.length + 1 can never run out
and the out-of-fuel branch is unreachable from earLoop.
Source: crates/2d-geom/src/polygon.rs, Polygon::triangulate (while
loop). -/
def earLoopF : Nat → List Pt → List Bool → List Tri →
    Option (List Pt × List Tri)
  | 0, _, _, _ => none
  | fuel + 1, vs, ears, acc =>
    if 3 < vs.length then
      match rpos ears with
      | none => none
      | some i =>
        let n := vs.length
        let prev := prevIdx n i
        let prevPrev := prevIdx n prev
        let next := nextIdx n i
        let nextNext := nextIdx n next
        let t : Tri := (vs.getD prev default, vs.getD i default,
          vs.getD next default)
        let e1 := isDiagonal vs prevPrev next
        let e2 := isDiagonal vs prev nextNext
        earLoopF fuel (vs.eraseIdx i)
          (((ears.set prev e1).set next e2).eraseIdx i) (acc ++ [t])
    else
      some (vs, acc)

/-- The ear-cutting loop at its (sufficient) initial fuel. -/
def earLoop (vs : List Pt) (ears : List Bool) (acc : List Tri) :
    Option (List Pt × List Tri) :=
  earLoopF (ears.length + 1) vs ears acc

/-- The initial ear flags of Polygon::triangulate:
ears[i] = is_diagonal(prev(i), next(i)).
Source: crates/2d-geom/src/polygon.rs, Polygon::triangulate. -/
def earsInit (vs1 : List Pt) : List Bool :=
  (List.range vs1.length).map fun i =>
    isDiagonal vs1 (prevIdx vs1.length i) (nextIdx vs1.length i)

/-- Source: crates/2d-geom/src/polygon.rs, Polygon::triangulate.  The
pre-pass is skipped for an empty vertex list (its loop range is empty);
the final report of vertices 0, 1, 2 indexes out of bounds (panics)
unless exactly 3 vertices remain, and panic is modelled as none. -/
def triangulate (vs : List Pt) : Option (List Tri) :=
  match (if vs.length = 0 then (vs, ([] : List Tri))
         else prePassFrom (vs.length - 1) vs []) with
  | (vs1, acc1) =>
    match earLoop vs1 (earsInit vs1) acc1 with
    | none => none
    | some (vs2, acc2) =>
      match vs2 with
      | [a, b, c] => some (acc2 ++ [(a, b, c)])
      | _ => none

/-
Auxiliary quantities for the triangulation theorems: the cross product
form of the shoelace sum and the total doubled area of a triangle
list.
-/

/-- Cross product term of the shoelace sum. -/
def crossP (a b : Pt) : Int := a.x * b.y - b.x * a.y

/-- Sum of cross products along consecutive pairs of a path. -/
def pathSum : List Pt → Int
  | a :: b :: t => crossP a b + pathSum (b :: t)
  | _ => 0

/-- Last element of a point list (default for the empty list). -/
def lastP : List Pt → Pt
  | [] => default
  | [a] => a
  | _ :: b :: t => lastP (b :: t)

/-- The shoelace edge sum of a closed polygon: the path sum of the
vertex list with the first vertex appended to close the cycle. -/
def shoelaceD : List Pt → Int
  | [] => 0
  | a :: t => pathSum ((a :: t) ++ [a])

/-- Total doubled signed area of a list of reported triangles. -/
def triSum (ts : List Tri) : Int := (ts.map triArea2).sum

/-
Convex hull.  Source: crates/2d-geom/src/lib.rs fn sort_around and
crates/2d-geom/src/convex_polygon.rs ConvexPolygon::hull.
-/

/-- euclid vector cross product v.x * w.y - v.y * w.x (Pt doubling as a
vector type). -/
def crossVec (v w : Pt) : Int := v.x * w.y - v.y * w.x

/-- The comparator passed to sort_by by sort_around; partial_cmp
followed by unwrap is, at Int, the total-order compare.
Source: crates/2d-geom/src/lib.rs, fn sort_around. -/
def aroundCmp (pivot a b : Pt) : Ordering :=
  let aDx := a.x - pivot.x
  let bDx := b.x - pivot.x
  if 0 ≤ aDx ∧ bDx < 0 then Ordering.gt
  else if aDx < 0 ∧ 0 ≤ bDx then Ordering.lt
  else if aDx = 0 ∧ bDx = 0 then
    if 0 ≤ a.y - pivot.y ∨ 0 ≤ b.y - pivot.y then compare a.y b.y
    else compare b.y a.y
  else
    let c := crossVec ⟨a.x - pivot.x, a.y - pivot.y⟩ ⟨b.x - pivot.x, b.y - pivot.y⟩
    if c < 0 then Ordering.gt
    else if 0 < c then Ordering.lt
    else compare (crossVec a pivot) (crossVec b pivot)

/-- Stable insertion of x into a sorted prefix: x goes after every
element it does not compare strictly less than. -/
def insertByCmp (cmp : Pt → Pt → Ordering) (x : Pt) : List Pt → List Pt
  | [] => [x]
  | y :: t =>
    if cmp x y = Ordering.lt then x :: y :: t else y :: insertByCmp cmp x t

/-- Stable sort by a comparator, modelling slice::sort_by (Rust's sort
is stable; whenever the comparator is a strict weak ordering - as it is
at every concrete input evaluated in the theorems below - all stable
sorts produce the same list, so the choice of stable algorithm does not
matter). -/
def sortByCmp (cmp : Pt → Pt → Ordering) (l : List Pt) : List Pt :=
  l.foldl (fun acc x => insertByCmp cmp x acc) []

/-- Helper of dedupAdj: drop elements equal to the last retained
point. -/
def dedupTail (prev : Pt) : List Pt → List Pt
  | [] => []
  | b :: t => if b = prev then dedupTail prev t else b :: dedupTail b t

/-- Vec::dedup: remove consecutive repeated points, keeping the first
of each run. -/
def dedupAdj : List Pt → List Pt
  | [] => []
  | a :: t => a :: dedupTail a t

/-- Lexicographic strict greater-than on (x, y), modelling the
NoMorePartial tuple comparison in the pivot-finding fold of hull. -/
def lexGt (a b : Pt) : Bool :=
  decide (b.x < a.x ∨ (a.x = b.x ∧ b.y < a.y))

/-- i64::MIN, the seed of the pivot-finding fold in hull. -/
def i64Min : Int := -(2 ^ 63)

/-- The stack-based scan of ConvexPolygon::hull.  The stack is kept in
reversed order (top first); the scan starts at i = 1 and stops when
i = vertices.len() - 1.  The assert!(stack.len() >= 2) can never fire
because an entry is popped only when more than 2 remain; the
unreachable short stack case returns the stack unchanged.
Source: crates/2d-geom/src/convex_polygon.rs, ConvexPolygon::hull
(while loop). -/
def hullScanF (vs : List Pt) : Nat → Nat → List Pt → List Pt
  | 0, _, revStack => revStack
  | fuel + 1, i, revStack =>
    if i < vs.length - 1 then
      match revStack with
      | top :: under :: rest =>
        let v := vs.getD i default
        if (line under top).isLeft v then
          hullScanF vs fuel (i + 1) (v :: top :: under :: rest)
        else if rest = [] then
          hullScanF vs fuel (i + 1) (top :: under :: rest)
        else
          hullScanF vs fuel i (under :: rest)
      | s => s
    else revStack

/-- The hull scan at its initial fuel.  Each iteration either advances
i (which only ever increases, and the loop stops at vs.length - 1) or
pops the stack (which grows only when i advances and starts at size 2),
so the iteration count is at most 2 * vs.length + 2 and the fuel below
can never run out: the out-of-fuel branch is unreachable. -/
def hullScan (vs : List Pt) (i : Nat) (revStack : List Pt) : List Pt :=
  hullScanF vs (2 * vs.length + 3) i revStack

/-- Source: crates/2d-geom/src/convex_polygon.rs, ConvexPolygon::hull.
Returns the vertex list of the hull polygon; none covers both the
explicit None returns and the (never reached in the theorems below)
panic of the final Polygon::new, whose counter-clockwise check is
part of polygonNew. -/
def hullList (vs : List Pt) : Option (List Pt) :=
  let mx := vs.foldl (fun a b => if lexGt a b then a else b) ⟨i64Min, i64Min⟩
  let sorted := sortByCmp (aroundCmp mx) vs
  let dd := dedupAdj sorted
  if dd.length < 3 then none
  else
    let st := hullScan dd 1 [dd.getD 0 default, mx]
    if st.length < 3 then none
    else polygonNew st.reverse

/-- Source: crates/2d-geom/src/convex_polygon.rs,
ConvexPolygon::improperly_contains_point: every wrapping edge sees the
point on its left or collinear with it. -/
def improperlyContainsPoint (vs : List Pt) (p : Pt) : Bool :=
  (wrapPairs vs.length).all fun ij =>
    (line (vs.getD ij.1 default) (vs.getD ij.2 default)).isLeftOrCollinear p

/-
Axis-aligned bounding boxes and the AABB tree.
Source: crates/aabb/src/lib.rs.
-/

/-- Source: crates/aabb/src/lib.rs, struct Aabb. -/
structure Aabb where
  min : Pt
  max : Pt
deriving DecidableEq, Repr

/-- Source: crates/aabb/src/lib.rs, Aabb::area. -/
def Aabb.area (s : Aabb) : Int :=
  (s.max.x - s.min.x) * (s.max.y - s.min.y)

/-- Source: crates/aabb/src/lib.rs, Aabb::join (least upper bound via
partial_min / partial_max). -/
def Aabb.join (s o : Aabb) : Aabb :=
  ⟨⟨pmin s.min.x o.min.x, pmin s.min.y o.min.y⟩,
   ⟨pmax s.max.x o.max.x, pmax s.max.y o.max.y⟩⟩

/-- Source: crates/aabb/src/lib.rs, Aabb::contains. -/
def Aabb.contains (s o : Aabb) : Bool :=
  decide (s.min.x ≤ o.min.x) && decide (o.max.x ≤ s.max.x)
    && decide (s.min.y ≤ o.min.y) && decide (o.max.y ≤ s.max.y)

/-- Source: crates/aabb/src/lib.rs, Aabb::intersects (strict
inequalities on every side). -/
def Aabb.intersects (s o : Aabb) : Bool :=
  decide (o.min.x < s.max.x) && decide (s.min.x < o.max.x)
    && decide (o.min.y < s.max.y) && decide (s.min.y < o.max.y)

/-- Source: crates/aabb/src/lib.rs, enum AabbTreeNode (the branch
children tuple is flattened into two fields). -/
inductive AabbTreeNode (V : Type) where
  | leaf (aabb : Aabb) (value : V)
  | branch (aabb : Aabb) (left right : AabbTreeNode V)
deriving DecidableEq

/-- Source: crates/aabb/src/lib.rs, struct AabbTree. -/
structure AabbTree (V : Type) where
  root : Option (AabbTreeNode V)

/-- Source: crates/aabb/src/lib.rs, AabbTreeNode::aabb. -/
def AabbTreeNode.aabb {V : Type} : AabbTreeNode V → Aabb
  | .leaf a _ => a
  | .branch a _ _ => a

/-- Source: crates/aabb/src/lib.rs, AabbTreeNode::insert.  The numeric
literal 2 is the source's two = T::one() + T::one(). -/
def AabbTreeNode.insert {V : Type} :
    AabbTreeNode V → Aabb → V → AabbTreeNode V
  | .leaf la lv, box, v =>
    .branch (la.join box) (.leaf la lv) (.leaf box v)
  | .branch ba l r, box, v =>
    let combined := ba.join box
    let newParentCost := 2 * combined.area
    let minPushDownCost := 2 * (combined.area - ba.area)
    let leftCost :=
      match l with
      | .leaf a _ => (a.join box).area + minPushDownCost
      | .branch a _ _ => (a.join box).area - a.area + minPushDownCost
    let rightCost :=
      match r with
      | .leaf a _ => (a.join box).area + minPushDownCost
      | .branch a _ _ => (a.join box).area - a.area + minPushDownCost
    if newParentCost < leftCost ∧ newParentCost < rightCost then
      .branch combined (.leaf box v) (.branch ba l r)
    else if leftCost < rightCost then
      .branch combined (l.insert box v) r
    else
      .branch combined l (r.insert box v)

/-- Source: crates/aabb/src/lib.rs, AabbTree::insert. -/
def AabbTree.insert {V : Type} (t : AabbTree V) (box : Aabb) (v : V) :
    AabbTree V :=
  match t.root with
  | none => ⟨some (.leaf box v)⟩
  | some r => ⟨some (r.insert box v)⟩

/-- Source: crates/aabb/src/lib.rs, AabbTree::new followed by a
sequence of AabbTree::insert calls, one per list entry. -/
def insertAll {V : Type} (ps : List (Aabb × V)) : AabbTree V :=
  ps.foldl (fun t p => t.insert p.1 p.2) ⟨none⟩

/-- Does the depth-first traversal of iter_overlapping reach a leaf?
A node is entered only if its box passes the intersection test
(the root against the query as in iter_overlapping, each branch child
against the query as in IterOverlapping::next); every entered leaf is
yielded.  Source: crates/aabb/src/lib.rs, AabbTree::iter_overlapping
and IterOverlapping::next. -/
def AabbTreeNode.reachesLeaf {V : Type} (q : Aabb) :
    AabbTreeNode V → Bool
  | .leaf _ _ => true
  | .branch _ l r =>
    (q.intersects l.aabb && l.reachesLeaf q)
      || (q.intersects r.aabb && r.reachesLeaf q)

/-- Source: crates/aabb/src/lib.rs, AabbTree::any_overlap:
iter_overlapping(aabb).next().is_some(), i.e. the traversal yields at
least one leaf. -/
def AabbTree.anyOverlap {V : Type} (t : AabbTree V) (q : Aabb) : Bool :=
  match t.root with
  | none => false
  | some r => r.aabb.intersects q && r.reachesLeaf q

/-- The multiset of leaf boxes of a node, in left-to-right order. -/
def AabbTreeNode.leafBoxes {V : Type} : AabbTreeNode V → List Aabb
  | .leaf a _ => [a]
  | .branch _ l r => l.leafBoxes ++ r.leafBoxes

/-- The multiset of leaf boxes of a tree. -/
def AabbTree.leafBoxes {V : Type} (t : AabbTree V) : List Aabb :=
  match t.root with
  | none => []
  | some r => r.leafBoxes

/-- The structural invariant of the tree: every branch box is exactly
the join of its children's boxes. -/
def AabbTreeNode.good {V : Type} : AabbTreeNode V → Prop
  | .leaf _ _ => True
  | .branch a l r => a = l.aabb.join r.aabb ∧ l.good ∧ r.good

/-- The invariant lifted to trees. -/
def AabbTree.good {V : Type} (t : AabbTree V) : Prop :=
  match t.root with
  | none => True
  | some r => r.good

/-
Insertion costs of AabbTreeNode::insert as standalone definitions,
extracted verbatim from the let bindings of the source, for stating
the cost-choice claim.
-/

/-- Cost of making the new leaf a sibling of the whole subtree.
Source: crates/aabb/src/lib.rs, AabbTreeNode::insert, new_parent_cost. -/
def newParentCost (ba box : Aabb) : Int := 2 * (ba.join box).area

/-- Cost of pushing the new leaf down into the given child.
Source: crates/aabb/src/lib.rs, AabbTreeNode::insert, left_cost and
right_cost (including the uniformly added min_push_down_cost). -/
def descendCost {V : Type} (ba : Aabb) (child : AabbTreeNode V)
    (box : Aabb) : Int :=
  let minPushDownCost := 2 * ((ba.join box).area - ba.area)
  match child with
  | .leaf a _ => (a.join box).area + minPushDownCost
  | .branch a _ _ => (a.join box).area - a.area + minPushDownCost

/-
Theorems.
-/

set_option maxRecDepth 40000

theorem area2_degenerate (a p : Pt) : area2 a a p = 0 := by
  unfold area2
  ring

theorem relDir_degenerate (a q : Pt) :
    (line a a).relativeDirectionOf q = RelativeDirection.collinear := by
  unfold Line.relativeDirectionOf
  have h : area2 (line a a).a (line a a).b q = 0 := area2_degenerate a q
  rw [h]
  rfl

/-- Claim C10: a zero-length segment line(a, a) classifies every point
as Collinear, hence is_left and is_right are always false, and
line(a, a).intersects(m) is false for every segment m. -/
theorem degenerate_line_collinear (a p : Pt) (m : Line) :
    (line a a).relativeDirectionOf p = RelativeDirection.collinear ∧
    (line a a).isLeft p = false ∧
    (line a a).isRight p = false ∧
    (line a a).intersects m = false := by
  refine ⟨relDir_degenerate a p, ?_, ?_, ?_⟩
  · simp [Line.isLeft, relDir_degenerate]
  · simp [Line.isRight, relDir_degenerate]
  · unfold Line.intersects
    have hc : (line a a).isCollinear m.a = true := by
      simp [Line.isCollinear, relDir_degenerate]
    rw [hc]
    simp

/-- Claim C8: whenever its operands are incomparable (partial_cmp
yields neither Less nor Greater), min returns the second operand and
max returns the second operand. -/
theorem partial_min_max_incomparable {α : Type}
    (pcmp : α → α → Option Ordering) (a b : α)
    (h1 : pcmp a b ≠ some Ordering.lt)
    (h2 : pcmp a b ≠ some Ordering.gt) :
    partialMin pcmp a b = b ∧ partialMax pcmp a b = b := by
  unfold partialMin partialMax
  rw [if_neg h1, if_neg h2]
  exact ⟨rfl, rfl⟩

theorem partial_min_max_incomparable_witness :
    ((fun (_ _ : Bool) => (none : Option Ordering)) true false
        ≠ some Ordering.lt) ∧
    partialMin (fun (_ _ : Bool) => (none : Option Ordering)) true false
        = false ∧
    partialMax (fun (_ _ : Bool) => (none : Option Ordering)) true false
        = false := by
  refine ⟨by simp, ?_, ?_⟩
  · exact (partial_min_max_incomparable
      (fun (_ _ : Bool) => (none : Option Ordering)) true false
      (by simp) (by simp)).1
  · exact (partial_min_max_incomparable
      (fun (_ _ : Bool) => (none : Option Ordering)) true false
      (by simp) (by simp)).2

/-- Claim C7: AABB intersection is symmetric, and every box with
min <= max componentwise and non-zero area intersects itself. -/
theorem intersects_symm_refl :
    (∀ s o : Aabb, s.intersects o = o.intersects s) ∧
    (∀ s : Aabb, s.min.x ≤ s.max.x → s.min.y ≤ s.max.y → s.area ≠ 0 →
      s.intersects s = true) := by
  constructor
  · intro s o
    simp only [Aabb.intersects]
    rw [Bool.eq_iff_iff]
    simp only [Bool.and_eq_true, decide_eq_true_eq]
    tauto
  · intro s hx hy ha
    unfold Aabb.area at ha
    have h1 := mul_ne_zero_iff.mp ha
    simp only [Aabb.intersects, Bool.and_eq_true, decide_eq_true_eq]
    omega

theorem intersects_symm_refl_witness :
    ((⟨⟨0, 0⟩, ⟨2, 3⟩⟩ : Aabb).min.x ≤ (⟨⟨0, 0⟩, ⟨2, 3⟩⟩ : Aabb).max.x ∧
      (⟨⟨0, 0⟩, ⟨2, 3⟩⟩ : Aabb).area ≠ 0) ∧
    Aabb.intersects ⟨⟨0, 0⟩, ⟨2, 3⟩⟩ ⟨⟨0, 0⟩, ⟨2, 3⟩⟩ = true ∧
    Aabb.intersects ⟨⟨0, 0⟩, ⟨2, 3⟩⟩ ⟨⟨1, 1⟩, ⟨5, 5⟩⟩
      = Aabb.intersects ⟨⟨1, 1⟩, ⟨5, 5⟩⟩ ⟨⟨0, 0⟩, ⟨2, 3⟩⟩ := by
  refine ⟨by decide, ?_, intersects_symm_refl.1 _ _⟩
  exact intersects_symm_refl.2 ⟨⟨0, 0⟩, ⟨2, 3⟩⟩ (by decide) (by decide)
    (by decide)

/-- Claim C5: Polygon::new fails exactly when the vertex count is
below 3 or the edge sum (b.x - a.x) * (b.y + a.y) over wrapping edges
is positive (not counter-clockwise); on success the stored vertices
are exactly the given sequence. -/
theorem polygon_new_spec (vs : List Pt) :
    (polygonNew vs = none ↔ vs.length < 3 ∨ ¬ ccwSum vs ≤ 0) ∧
    (polygonNew vs = none ∨ polygonNew vs = some vs) := by
  by_cases h3 : 3 ≤ vs.length <;> by_cases hc : ccwSum vs ≤ 0 <;>
    simp [polygonNew, isCounterClockwise, h3, hc] <;> omega

/-- Claim C1 (refuting the hull-containment property on the code): for
the input point list [(0,0), (-1,0), (1,0), (1,-1)], hull returns a
polygon, the point (-1,0) is one of the input points, and yet the
returned polygon does not improperly contain (-1,0). -/
theorem hull_misses_input_point :
    hullList [⟨0, 0⟩, ⟨-1, 0⟩, ⟨1, 0⟩, ⟨1, -1⟩]
        = some [⟨1, 0⟩, ⟨0, 0⟩, ⟨1, -1⟩] ∧
    (⟨-1, 0⟩ : Pt) ∈ [(⟨0, 0⟩ : Pt), ⟨-1, 0⟩, ⟨1, 0⟩, ⟨1, -1⟩] ∧
    improperlyContainsPoint [⟨1, 0⟩, ⟨0, 0⟩, ⟨1, -1⟩] ⟨-1, 0⟩ = false := by
  refine ⟨by decide, by decide, by decide⟩

/-- Claim C2 is false as stated: the degenerate box with min = max =
(0,0) satisfies the stated constructor constraint min <= max, yet after
inserting it into an empty tree, any_overlap on that very box is false,
because Aabb::intersects uses strict inequalities. -/
theorem degenerate_box_not_self_overlapping :
    ((⟨⟨0, 0⟩, ⟨0, 0⟩⟩ : Aabb).min.x ≤ (⟨⟨0, 0⟩, ⟨0, 0⟩⟩ : Aabb).max.x ∧
      (⟨⟨0, 0⟩, ⟨0, 0⟩⟩ : Aabb).min.y ≤ (⟨⟨0, 0⟩, ⟨0, 0⟩⟩ : Aabb).max.y) ∧
    AabbTree.anyOverlap (insertAll [((⟨⟨0, 0⟩, ⟨0, 0⟩⟩ : Aabb), ())])
      ⟨⟨0, 0⟩, ⟨0, 0⟩⟩ = false := by
  exact ⟨by decide, by decide⟩

/-- Claim C4 is false as stated: inserting the box [(0,0),(2,1)] into a
branch whose box is [(0,0),(1,1)] with two identical leaf children
[(0,0),(1,1)] makes all three candidate costs equal (4), and the code
descends into the right child, whereas the claim says that on exact
ties "stop here" wins and left is favored over right.  The actual
result differs from the stop-here result the claim predicts. -/
theorem insert_tie_goes_right :
    newParentCost ⟨⟨0, 0⟩, ⟨1, 1⟩⟩ ⟨⟨0, 0⟩, ⟨2, 1⟩⟩ = 4 ∧
    descendCost ⟨⟨0, 0⟩, ⟨1, 1⟩⟩
      (AabbTreeNode.leaf ⟨⟨0, 0⟩, ⟨1, 1⟩⟩ ()) ⟨⟨0, 0⟩, ⟨2, 1⟩⟩ = 4 ∧
    (AabbTreeNode.branch ⟨⟨0, 0⟩, ⟨1, 1⟩⟩
        (.leaf ⟨⟨0, 0⟩, ⟨1, 1⟩⟩ ()) (.leaf ⟨⟨0, 0⟩, ⟨1, 1⟩⟩ ())).insert
        ⟨⟨0, 0⟩, ⟨2, 1⟩⟩ ()
      = AabbTreeNode.branch ⟨⟨0, 0⟩, ⟨2, 1⟩⟩
          (.leaf ⟨⟨0, 0⟩, ⟨1, 1⟩⟩ ())
          (.branch ⟨⟨0, 0⟩, ⟨2, 1⟩⟩ (.leaf ⟨⟨0, 0⟩, ⟨1, 1⟩⟩ ())
            (.leaf ⟨⟨0, 0⟩, ⟨2, 1⟩⟩ ())) ∧
    AabbTreeNode.branch ⟨⟨0, 0⟩, ⟨2, 1⟩⟩
        (.leaf ⟨⟨0, 0⟩, ⟨1, 1⟩⟩ ())
        (.branch ⟨⟨0, 0⟩, ⟨2, 1⟩⟩ (.leaf ⟨⟨0, 0⟩, ⟨1, 1⟩⟩ ())
          (.leaf ⟨⟨0, 0⟩, ⟨2, 1⟩⟩ ()))
      ≠ AabbTreeNode.branch ⟨⟨0, 0⟩, ⟨2, 1⟩⟩
          (.leaf ⟨⟨0, 0⟩, ⟨2, 1⟩⟩ ())
          (.branch ⟨⟨0, 0⟩, ⟨1, 1⟩⟩ (.leaf ⟨⟨0, 0⟩, ⟨1, 1⟩⟩ ())
            (.leaf ⟨⟨0, 0⟩, ⟨1, 1⟩⟩ ())) := by
  refine ⟨by decide, by decide, by decide, by decide⟩

/-- Claim C3 is false as stated for integer coordinates: the unit
square triangulates into two triangles whose areas, each computed as
the absolute shoelace sum divided (with truncation) by two, are both 0,
while the square's area is 1. -/
theorem triangulation_truncated_area_mismatch :
    triangulate [⟨0, 0⟩, ⟨1, 0⟩, ⟨1, 1⟩, ⟨0, 1⟩]
        = some [(⟨1, 1⟩, ⟨0, 1⟩, ⟨0, 0⟩), (⟨0, 0⟩, ⟨1, 0⟩, ⟨1, 1⟩)] ∧
    (([(⟨1, 1⟩, ⟨0, 1⟩, ⟨0, 0⟩), (⟨0, 0⟩, ⟨1, 0⟩, ⟨1, 1⟩)] : List Tri).map
          (fun t => polygonArea [t.1, t.2.1, t.2.2])).sum = 0 ∧
    polygonArea [⟨0, 0⟩, ⟨1, 0⟩, ⟨1, 1⟩, ⟨0, 1⟩] = 1 := by
  refine ⟨by decide, by decide, by decide⟩

/-- Claim C4 as amended: at a branch, insertion goes to the stop-here
position exactly when new_parent_cost is strictly below both descend
costs, otherwise it descends left exactly when the left cost is
strictly below the right cost, and descends right otherwise; in
particular the chosen destination always has the minimal cost, ties
between the descend costs favor the right child, and a descend option
beats a stop-here option of equal cost. -/
theorem insert_cost_choice {V : Type} (ba : Aabb) (l r : AabbTreeNode V)
    (box : Aabb) (v : V) :
    ((AabbTreeNode.branch ba l r).insert box v =
      if newParentCost ba box < descendCost ba l box ∧
          newParentCost ba box < descendCost ba r box then
        AabbTreeNode.branch (ba.join box) (.leaf box v)
          (.branch ba l r)
      else if descendCost ba l box < descendCost ba r box then
        AabbTreeNode.branch (ba.join box) (l.insert box v) r
      else
        AabbTreeNode.branch (ba.join box) l (r.insert box v)) ∧
    (if newParentCost ba box < descendCost ba l box ∧
        newParentCost ba box < descendCost ba r box then
      newParentCost ba box
    else if descendCost ba l box < descendCost ba r box then
      descendCost ba l box
    else
      descendCost ba r box)
      = min (newParentCost ba box)
          (min (descendCost ba l box) (descendCost ba r box)) := by
  constructor
  · cases l <;> cases r <;>
      simp only [AabbTreeNode.insert, newParentCost, descendCost]
  · split_ifs <;> omega

theorem pmin_eq_min (a b : Int) : pmin a b = min a b := by
  unfold pmin
  rw [min_def]
  split_ifs <;> omega

theorem pmax_eq_max (a b : Int) : pmax a b = max a b := by
  unfold pmax
  rw [max_def]
  split_ifs <;> omega

theorem join_comm (s o : Aabb) : s.join o = o.join s := by
  simp [Aabb.join, pmin_eq_min, pmax_eq_max, min_comm, max_comm]

theorem join_assoc (s o t : Aabb) :
    (s.join o).join t = s.join (o.join t) := by
  simp [Aabb.join, pmin_eq_min, pmax_eq_max, min_assoc, max_assoc]

theorem join_right_comm (s o t : Aabb) :
    (s.join o).join t = (s.join t).join o := by
  rw [join_assoc, join_comm o t, ← join_assoc]

theorem insert_aabb {V : Type} (n : AabbTreeNode V) (box : Aabb)
    (v : V) : (n.insert box v).aabb = n.aabb.join box := by
  cases n with
  | leaf a val => rfl
  | branch a l r =>
    simp only [AabbTreeNode.insert]
    split_ifs <;> rfl

theorem good_insert {V : Type} (n : AabbTreeNode V) (box : Aabb)
    (v : V) (h : n.good) : (n.insert box v).good := by
  induction n with
  | leaf a val => exact ⟨rfl, trivial, trivial⟩
  | branch a l r ihl ihr =>
    obtain ⟨ha, hl, hr⟩ := h
    simp only [AabbTreeNode.insert]
    split_ifs
    · exact ⟨join_comm a box, trivial, ha, hl, hr⟩
    · refine ⟨?_, ihl hl, hr⟩
      show a.join box = (l.insert box v).aabb.join r.aabb
      rw [insert_aabb, ha, join_right_comm]
    · refine ⟨?_, hl, ihr hr⟩
      show a.join box = l.aabb.join (r.insert box v).aabb
      rw [insert_aabb, ha, join_assoc]

theorem leafBoxes_insert {V : Type} (n : AabbTreeNode V) (box : Aabb)
    (v : V) : (n.insert box v).leafBoxes.Perm (box :: n.leafBoxes) := by
  induction n with
  | leaf a val =>
    show List.Perm [a, box] [box, a]
    exact List.Perm.swap box a []
  | branch a l r ihl ihr =>
    simp only [AabbTreeNode.insert]
    split_ifs
    · exact List.Perm.refl _
    · exact ihl.append_right r.leafBoxes
    · exact List.Perm.trans (List.Perm.append_left l.leafBoxes ihr)
        List.perm_middle

theorem tree_insert_good {V : Type} (t : AabbTree V) (box : Aabb)
    (v : V) (h : t.good) : (t.insert box v).good := by
  cases t with
  | mk root =>
    cases root with
    | none => trivial
    | some r => exact good_insert r box v h

theorem tree_insert_leafBoxes {V : Type} (t : AabbTree V) (box : Aabb)
    (v : V) : (t.insert box v).leafBoxes.Perm (box :: t.leafBoxes) := by
  cases t with
  | mk root =>
    cases root with
    | none => exact List.Perm.refl _
    | some r => exact leafBoxes_insert r box v

theorem foldl_insert_good {V : Type} (ps : List (Aabb × V))
    (t : AabbTree V) (h : t.good) :
    (ps.foldl (fun t p => t.insert p.1 p.2) t).good := by
  induction ps generalizing t with
  | nil => exact h
  | cons p rest ih => exact ih _ (tree_insert_good t p.1 p.2 h)

theorem foldl_insert_leafBoxes {V : Type} (ps : List (Aabb × V))
    (t : AabbTree V) :
    (ps.foldl (fun t p => t.insert p.1 p.2) t).leafBoxes.Perm
      (ps.map Prod.fst ++ t.leafBoxes) := by
  induction ps generalizing t with
  | nil => exact List.Perm.refl _
  | cons p rest ih =>
    refine List.Perm.trans (ih (t.insert p.1 p.2)) ?_
    refine List.Perm.trans
      (List.Perm.append_left (rest.map Prod.fst)
        (tree_insert_leafBoxes t p.1 p.2)) ?_
    exact List.perm_middle

theorem insertAll_invariant {V : Type} (ps : List (Aabb × V)) :
    (insertAll ps).good ∧
    (insertAll ps).leafBoxes.Perm (ps.map Prod.fst) := by
  constructor
  · exact foldl_insert_good ps ⟨none⟩ trivial
  · have h := foldl_insert_leafBoxes ps (⟨none⟩ : AabbTree V)
    simpa [insertAll, AabbTree.leafBoxes] using h

/-- Claim C6: every tree built from the empty tree by a sequence of
inserts satisfies the structural invariant (each branch box is exactly
the join of its children's boxes), and its leaf boxes are exactly the
multiset of inserted boxes, never expanded. -/
theorem tree_invariant_reachable {V : Type} (ps : List (Aabb × V)) :
    (insertAll ps).good ∧
    (insertAll ps).leafBoxes.Perm (ps.map Prod.fst) :=
  insertAll_invariant ps

theorem contains_refl (x : Aabb) : x.contains x = true := by
  simp [Aabb.contains]

theorem join_contains_left (x y : Aabb) : (x.join y).contains x = true := by
  simp only [Aabb.contains, Aabb.join, pmin_eq_min, pmax_eq_max,
    Bool.and_eq_true, decide_eq_true_eq]
  omega

theorem join_contains_right (x y : Aabb) :
    (x.join y).contains y = true := by
  rw [join_comm]
  exact join_contains_left y x

theorem contains_trans (x y z : Aabb) (h1 : x.contains y = true)
    (h2 : y.contains z = true) : x.contains z = true := by
  simp only [Aabb.contains, Bool.and_eq_true, decide_eq_true_eq] at *
  omega

theorem node_contains_leaf {V : Type} (n : AabbTreeNode V) (h : n.good)
    (b : Aabb) (hb : b ∈ n.leafBoxes) : n.aabb.contains b = true := by
  induction n with
  | leaf a val =>
    have hab : b = a := by simpa [AabbTreeNode.leafBoxes] using hb
    rw [hab]
    exact contains_refl a
  | branch a l r ihl ihr =>
    obtain ⟨ha, hl, hr⟩ := h
    simp only [AabbTreeNode.leafBoxes, List.mem_append] at hb
    show a.contains b = true
    rw [ha]
    cases hb with
    | inl hbl =>
      exact contains_trans _ _ _ (join_contains_left l.aabb r.aabb)
        (ihl hl hbl)
    | inr hbr =>
      exact contains_trans _ _ _ (join_contains_right l.aabb r.aabb)
        (ihr hr hbr)

theorem intersects_of_contains (c b : Aabb) (hc : c.contains b = true)
    (hw : b.min.x < b.max.x) (hh : b.min.y < b.max.y) :
    b.intersects c = true ∧ c.intersects b = true := by
  simp only [Aabb.contains, Bool.and_eq_true, decide_eq_true_eq] at hc
  simp only [Aabb.intersects, Bool.and_eq_true, decide_eq_true_eq]
  omega

theorem reachesLeaf_of_mem {V : Type} (n : AabbTreeNode V) (h : n.good)
    (b : Aabb) (hb : b ∈ n.leafBoxes) (hw : b.min.x < b.max.x)
    (hh : b.min.y < b.max.y) : n.reachesLeaf b = true := by
  induction n with
  | leaf a val => rfl
  | branch a l r ihl ihr =>
    obtain ⟨ha, hl, hr⟩ := h
    simp only [AabbTreeNode.leafBoxes, List.mem_append] at hb
    simp only [AabbTreeNode.reachesLeaf, Bool.or_eq_true,
      Bool.and_eq_true]
    cases hb with
    | inl hbl =>
      left
      exact ⟨(intersects_of_contains l.aabb b
        (node_contains_leaf l hl b hbl) hw hh).1, ihl hl hbl⟩
    | inr hbr =>
      right
      exact ⟨(intersects_of_contains r.aabb b
        (node_contains_leaf r hr b hbr) hw hh).1, ihr hr hbr⟩

/-- Claim C2 as amended: after inserting a list of boxes that each have
positive width and positive height (the degenerate equal-coordinate
boxes allowed by Aabb::new are excluded, as the counterexample forces),
any_overlap is true for every inserted box. -/
theorem tree_query_completeness {V : Type} (ps : List (Aabb × V))
    (hpos : ∀ p ∈ ps, p.1.min.x < p.1.max.x ∧ p.1.min.y < p.1.max.y) :
    ∀ p ∈ ps, (insertAll ps).anyOverlap p.1 = true := by
  intro p hp
  obtain ⟨hw, hh⟩ := hpos p hp
  have hgood := (insertAll_invariant (V := V) ps).1
  have hperm := (insertAll_invariant (V := V) ps).2
  have hmem : p.1 ∈ (insertAll ps).leafBoxes := by
    rw [hperm.mem_iff]
    exact List.mem_map_of_mem Prod.fst hp
  unfold AabbTree.anyOverlap
  cases hroot : (insertAll ps).root with
  | none =>
    rw [AabbTree.leafBoxes, hroot] at hmem
    simp at hmem
  | some r =>
    rw [AabbTree.leafBoxes, hroot] at hmem
    rw [AabbTree.good, hroot] at hgood
    simp only [Bool.and_eq_true]
    constructor
    · exact (intersects_of_contains r.aabb p.1
        (node_contains_leaf r hgood p.1 hmem) hw hh).2
    · exact reachesLeaf_of_mem r hgood p.1 hmem hw hh

theorem tree_query_completeness_witness :
    (∀ p ∈ ([((⟨⟨0, 0⟩, ⟨2, 2⟩⟩ : Aabb), 1), (⟨⟨2, 2⟩, ⟨4, 4⟩⟩, 2),
        (⟨⟨10, 10⟩, ⟨20, 20⟩⟩, 3)] : List (Aabb × Nat)),
      p.1.min.x < p.1.max.x ∧ p.1.min.y < p.1.max.y) ∧
    (insertAll ([((⟨⟨0, 0⟩, ⟨2, 2⟩⟩ : Aabb), 1), (⟨⟨2, 2⟩, ⟨4, 4⟩⟩, 2),
        (⟨⟨10, 10⟩, ⟨20, 20⟩⟩, 3)] : List (Aabb × Nat))).anyOverlap
      ⟨⟨0, 0⟩, ⟨2, 2⟩⟩ = true := by
  refine ⟨by decide, ?_⟩
  exact tree_query_completeness _ (by decide) (⟨⟨⟨0, 0⟩, ⟨2, 2⟩⟩, 1⟩)
    (by decide)

theorem rpos_lt {l : List Bool} {i : Nat} (h : rpos l = some i) :
    i < l.length := by
  induction l generalizing i with
  | nil => simp [rpos] at h
  | cons b t ih =>
    simp only [rpos] at h
    cases hr : rpos t with
    | some j =>
      rw [hr] at h
      cases h
      simpa using Nat.succ_lt_succ (ih hr)
    | none =>
      rw [hr] at h
      by_cases hb : b = true
      · simp [hb] at h
        simp [← h]
      · simp [hb] at h

theorem lastP_cons_cons (x y : Pt) (t : List Pt) :
    lastP (x :: y :: t) = lastP (y :: t) := rfl

theorem pathSum_append_cons (x : Pt) (xs : List Pt) (z : Pt) (zs : List Pt) :
    pathSum ((x :: xs) ++ z :: zs)
      = pathSum (x :: xs) + crossP (lastP (x :: xs)) z + pathSum (z :: zs) := by
  induction xs generalizing x with
  | nil =>
    simp [pathSum, lastP]
  | cons y xs' ih =>
    have h1 : (x :: y :: xs') ++ z :: zs = x :: ((y :: xs') ++ z :: zs) := rfl
    rw [h1]
    have h2 : pathSum (x :: ((y :: xs') ++ z :: zs))
        = crossP x y + pathSum ((y :: xs') ++ z :: zs) := rfl
    rw [h2, ih y, lastP_cons_cons]
    have h3 : pathSum (x :: y :: xs') = crossP x y + pathSum (y :: xs') := rfl
    rw [h3]
    ring

theorem pathSum_append_single (x : Pt) (xs : List Pt) (z : Pt) :
    pathSum ((x :: xs) ++ [z])
      = pathSum (x :: xs) + crossP (lastP (x :: xs)) z := by
  have h := pathSum_append_cons x xs z []
  simpa [pathSum] using h

theorem area2_cross (p b c : Pt) :
    area2 p b c = crossP b c + crossP p b - crossP p c := by
  unfold area2 crossP
  ring

theorem shoelace_head (c y : Pt) (ys : List Pt) :
    shoelaceD (c :: y :: ys)
      = shoelaceD (y :: ys) + area2 (lastP (y :: ys)) c y := by
  show pathSum ((c :: y :: ys) ++ [c])
      = pathSum ((y :: ys) ++ [y]) + area2 (lastP (y :: ys)) c y
  have h1 : (c :: y :: ys) ++ [c] = c :: ((y :: ys) ++ [c]) := rfl
  rw [h1]
  have h2 : pathSum (c :: ((y :: ys) ++ [c]))
      = crossP c y + pathSum ((y :: ys) ++ [c]) := by
    cases ys <;> rfl
  rw [h2, pathSum_append_single, pathSum_append_single, area2_cross]
  ring

theorem shoelace_mid_last (x : Pt) (xs : List Pt) (c : Pt) :
    shoelaceD ((x :: xs) ++ [c])
      = shoelaceD (x :: xs) + area2 (lastP (x :: xs)) c x := by
  show pathSum (((x :: xs) ++ [c]) ++ [x])
      = pathSum ((x :: xs) ++ [x]) + area2 (lastP (x :: xs)) c x
  have h1 : ((x :: xs) ++ [c]) ++ [x] = (x :: xs) ++ [c, x] := by
    simp
  rw [h1]
  have h2 : pathSum ((x :: xs) ++ ([c] ++ [x]))
      = pathSum (x :: xs) + crossP (lastP (x :: xs)) c + pathSum [c, x] := by
    exact pathSum_append_cons x xs c [x]
  rw [show (x :: xs) ++ [c, x] = (x :: xs) ++ ([c] ++ [x]) from rfl, h2,
    pathSum_append_single, area2_cross]
  simp [pathSum, crossP]
  ring

theorem shoelace_mid (x : Pt) (xs : List Pt) (c y : Pt) (ys : List Pt) :
    shoelaceD ((x :: xs) ++ c :: y :: ys)
      = shoelaceD ((x :: xs) ++ y :: ys)
        + area2 (lastP (x :: xs)) c y := by
  show pathSum (((x :: xs) ++ c :: y :: ys) ++ [x])
      = pathSum (((x :: xs) ++ y :: ys) ++ [x])
        + area2 (lastP (x :: xs)) c y
  have h1 : ((x :: xs) ++ c :: y :: ys) ++ [x]
      = (x :: xs) ++ c :: (y :: (ys ++ [x])) := by
    simp
  have h2 : ((x :: xs) ++ y :: ys) ++ [x]
      = (x :: xs) ++ y :: (ys ++ [x]) := by
    simp
  rw [h1, h2, pathSum_append_cons, pathSum_append_cons]
  have h3 : pathSum (c :: y :: (ys ++ [x]))
      = crossP c y + pathSum (y :: (ys ++ [x])) := rfl
  rw [h3, area2_cross]
  ring



theorem eraseIdx_append_len (xs : List Pt) (c : Pt) (ys : List Pt) :
    (xs ++ c :: ys).eraseIdx xs.length = xs ++ ys := by
  induction xs with
  | nil => rfl
  | cons x t ih => simp [List.eraseIdx_cons_succ, ih]

theorem getD_append_len (xs : List Pt) (c : Pt) (ys : List Pt) :
    (xs ++ c :: ys).getD xs.length default = c := by
  induction xs with
  | nil => rfl
  | cons x t ih => simpa using ih

theorem getD_append_lt (xs ys : List Pt) (k : Nat) (h : k < xs.length) :
    (xs ++ ys).getD k default = xs.getD k default := by
  induction xs generalizing k with
  | nil => simp at h
  | cons x t ih =>
    cases k with
    | zero => rfl
    | succ k' =>
      have hk : k' < t.length := by simpa using h
      simpa using ih k' hk

theorem getD_last (x : Pt) (xs : List Pt) :
    (x :: xs).getD xs.length default = lastP (x :: xs) := by
  induction xs generalizing x with
  | nil => rfl
  | cons y t ih =>
    rw [lastP_cons_cons]
    simpa using ih y

theorem shoelace_erase (vs : List Pt) (i : Nat) (h : i < vs.length) :
    shoelaceD (vs.eraseIdx i)
      = shoelaceD vs
        - area2 (vs.getD (prevIdx vs.length i) default)
            (vs.getD i default)
            (vs.getD (nextIdx vs.length i) default) := by
  rcases vs with _ | ⟨x, rest⟩
  · simp at h
  cases i with
  | zero =>
    rcases rest with _ | ⟨y, t⟩
    · simp [shoelaceD, pathSum, prevIdx, nextIdx, area2, crossP]
    · rw [List.eraseIdx_cons_zero, shoelace_head x y t]
      have hprev : prevIdx (x :: y :: t).length 0 = (y :: t).length := by
        simp [prevIdx]
      have hnext : nextIdx (x :: y :: t).length 0 = 1 := by
        simp [nextIdx]
      rw [hprev, hnext]
      have hgp : (x :: y :: t).getD (y :: t).length default
          = lastP (y :: t) := by
        rw [show (y :: t).length = ((y :: t) : List Pt).length from rfl]
        rw [getD_last x (y :: t), lastP_cons_cons]
      have hg0 : (x :: y :: t).getD 0 default = x := rfl
      have hg1 : (x :: y :: t).getD 1 default = y := rfl
      rw [hgp, hg0, hg1]
      ring
  | succ j =>
    have hj : j < rest.length := by simpa using h
    have hdecomp : rest = rest.take j ++ rest[j] :: rest.drop (j + 1) := by
      conv_lhs => rw [← List.take_append_drop j rest]
      rw [List.drop_eq_getElem_cons hj]
    set xs := rest.take j with hxs
    set c := rest[j] with hc
    set ys := rest.drop (j + 1) with hys
    have hlen : xs.length = j := by
      rw [hxs, List.length_take]
      omega
    have herase : (x :: rest).eraseIdx (j + 1) = x :: (xs ++ ys) := by
      rw [List.eraseIdx_cons_succ]
      rw [hdecomp]
      congr 1
      rw [show j = xs.length from hlen.symm] at hj ⊢
      exact eraseIdx_append_len xs c ys
    have hvs : x :: rest = (x :: xs) ++ c :: ys := by
      rw [hdecomp]
      rfl
    have hgi : (x :: rest).getD (j + 1) default = c := by
      rw [hvs]
      have : j + 1 = (x :: xs).length := by simp [hlen]
      rw [this]
      exact getD_append_len (x :: xs) c ys
    have hgprev : (x :: rest).getD j default = lastP (x :: xs) := by
      rw [hvs, getD_append_lt (x :: xs) (c :: ys) j (by simp [hlen])]
      have : j = xs.length := hlen.symm
      rw [this]
      exact getD_last x xs
    have hprev : prevIdx (x :: rest).length (j + 1) = j := by
      simp [prevIdx]
    rcases hys2 : ys with _ | ⟨y, ys'⟩
    · -- i = j + 1 is the last index
      have hlenvs : (x :: rest).length = j + 2 := by
        rw [hvs, hys2]
        simp [hlen]
      have hnext : nextIdx (x :: rest).length (j + 1) = 0 := by
        simp [nextIdx, hlenvs]
      rw [herase, hys2, hprev, hnext, hgi, hgprev]
      have hg0 : (x :: rest).getD 0 default = x := rfl
      rw [hg0]
      have h1 : (x :: (xs ++ [])) = x :: xs := by simp
      rw [h1]
      have h2 : x :: rest = (x :: xs) ++ [c] := by rw [hvs, hys2]
      rw [h2, shoelace_mid_last x xs c]
      ring
    · -- a vertex follows i
      have hlenvs : (x :: rest).length = j + 2 + ys'.length + 1 := by
        rw [hvs, hys2]
        simp [hlen]
        omega
      have hnext : nextIdx (x :: rest).length (j + 1) = j + 2 := by
        simp [nextIdx, hlenvs]
        omega
      have hgnext : (x :: rest).getD (j + 2) default = y := by
        rw [hvs, hys2]
        have : j + 2 = (x :: xs).length + 1 := by simp [hlen]
        rw [this]
        have := getD_append_len ((x :: xs) ++ [c]) y ys'
        simpa using this
      rw [herase, hys2, hprev, hnext, hgi, hgprev, hgnext]
      have h2 : x :: rest = (x :: xs) ++ c :: y :: ys' := by
        rw [hvs, hys2]
      have h3 : (x :: (xs ++ y :: ys') : List Pt) = (x :: xs) ++ y :: ys' :=
        rfl
      rw [h2, h3, shoelace_mid x xs c y ys']
      ring



theorem crossP_antisymm (u v : Pt) : crossP u v = -crossP v u := by
  unfold crossP
  ring

theorem fanFrom_eq (p b : Pt) (t : List Pt) :
    fanFrom p (b :: t)
      = pathSum (b :: t) + crossP p b - crossP p (lastP (b :: t)) := by
  induction t generalizing b with
  | nil =>
    simp [fanFrom, pathSum, lastP]
  | cons c t' ih =>
    rw [show fanFrom p (b :: c :: t') = area2 p b c + fanFrom p (c :: t')
      from rfl, ih c, lastP_cons_cons,
      show pathSum (b :: c :: t') = crossP b c + pathSum (c :: t') from rfl,
      area2_cross]
    ring

theorem signedDoubleArea_eq_shoelaceD (vs : List Pt) :
    signedDoubleArea vs = shoelaceD vs := by
  rcases vs with _ | ⟨p, _ | ⟨b, t⟩⟩
  · rfl
  · simp [signedDoubleArea, fanFrom, shoelaceD, pathSum, crossP]
  · rw [show signedDoubleArea (p :: b :: t) = fanFrom p (b :: t) from rfl,
      fanFrom_eq]
    rw [show shoelaceD (p :: b :: t)
        = crossP p b + pathSum ((b :: t) ++ [p]) from rfl,
      pathSum_append_single]
    rw [crossP_antisymm (lastP (b :: t)) p]
    ring

theorem shoelace_tri (a b c : Pt) : shoelaceD [a, b, c] = area2 a b c := by
  simp [shoelaceD, pathSum, area2, crossP]
  ring

theorem triSum_append (acc : List Tri) (t : Tri) :
    triSum (acc ++ [t]) = triSum acc + triArea2 t := by
  simp [triSum]

theorem prePassStep_count (i : Nat) (vs : List Pt) (acc : List Tri)
    (h : i < vs.length) :
    (prePassStep i vs acc).1.length + (prePassStep i vs acc).2.length
      = vs.length + acc.length := by
  unfold prePassStep
  dsimp only
  split_ifs
  · simp [List.length_eraseIdx, h]
    omega
  · rfl

theorem prePassStep_len_lb (i : Nat) (vs : List Pt) (acc : List Tri) :
    vs.length - 1 ≤ (prePassStep i vs acc).1.length := by
  unfold prePassStep
  dsimp only
  split_ifs
  · simp only [List.length_eraseIdx]
    split_ifs <;> omega
  · simp

theorem prePassStep_sum (i : Nat) (vs : List Pt) (acc : List Tri)
    (h : i < vs.length) :
    triSum (prePassStep i vs acc).2 + shoelaceD (prePassStep i vs acc).1
      = triSum acc + shoelaceD vs := by
  unfold prePassStep
  dsimp only
  split_ifs
  · simp only [triSum_append, shoelace_erase vs i h]
    have ht : triArea2 (vs.getD (prevIdx vs.length i) default,
        vs.getD i default, vs.getD (nextIdx vs.length i) default)
      = area2 (vs.getD (prevIdx vs.length i) default)
          (vs.getD i default) (vs.getD (nextIdx vs.length i) default) := rfl
    rw [ht]
    ring
  · rfl

theorem prePassFrom_count (i : Nat) (vs : List Pt) (acc : List Tri)
    (h : i < vs.length) :
    (prePassFrom i vs acc).1.length + (prePassFrom i vs acc).2.length
      = vs.length + acc.length := by
  induction i generalizing vs acc with
  | zero =>
    unfold prePassFrom
    split_ifs
    · rfl
    · exact prePassStep_count 0 vs acc h
  | succ j ih =>
    unfold prePassFrom
    dsimp only
    split_ifs
    · rfl
    · have hstep := prePassStep_count (j + 1) vs acc h
      have hlb := prePassStep_len_lb (j + 1) vs acc
      have hj : j < (prePassStep (j + 1) vs acc).1.length := by omega
      have := ih (prePassStep (j + 1) vs acc).1
        (prePassStep (j + 1) vs acc).2 hj
      omega

theorem prePassFrom_sum (i : Nat) (vs : List Pt) (acc : List Tri)
    (h : i < vs.length) :
    triSum (prePassFrom i vs acc).2 + shoelaceD (prePassFrom i vs acc).1
      = triSum acc + shoelaceD vs := by
  induction i generalizing vs acc with
  | zero =>
    unfold prePassFrom
    split_ifs
    · rfl
    · exact prePassStep_sum 0 vs acc h
  | succ j ih =>
    unfold prePassFrom
    dsimp only
    split_ifs
    · rfl
    · have hstep := prePassStep_sum (j + 1) vs acc h
      have hcount := prePassStep_count (j + 1) vs acc h
      have hlb := prePassStep_len_lb (j + 1) vs acc
      have hj : j < (prePassStep (j + 1) vs acc).1.length := by omega
      have := ih (prePassStep (j + 1) vs acc).1
        (prePassStep (j + 1) vs acc).2 hj
      omega

theorem earLoopF_inv (fuel : Nat) (vs : List Pt) (ears : List Bool)
    (acc : List Tri) (vs2 : List Pt) (acc2 : List Tri)
    (h : earLoopF fuel vs ears acc = some (vs2, acc2))
    (hlen : ears.length = vs.length) :
    vs2.length + acc2.length = vs.length + acc.length ∧
    triSum acc2 + shoelaceD vs2 = triSum acc + shoelaceD vs := by
  induction fuel generalizing vs ears acc with
  | zero => exact Option.noConfusion h
  | succ fuel ih =>
    rw [earLoopF] at h
    by_cases h3 : 3 < vs.length
    · rw [if_pos h3] at h
      cases hr : rpos ears with
      | none =>
        rw [hr] at h
        exact Option.noConfusion h
      | some i =>
        rw [hr] at h
        have hi : i < ears.length := rpos_lt hr
        have hiv : i < vs.length := by omega
        have hlen' :
            ((((ears.set (prevIdx vs.length i)
                (isDiagonal vs (prevIdx vs.length (prevIdx vs.length i))
                  (nextIdx vs.length i))).set (nextIdx vs.length i)
                (isDiagonal vs (prevIdx vs.length i)
                  (nextIdx vs.length (nextIdx vs.length i)))).eraseIdx
              i).length)
            = (vs.eraseIdx i).length := by
          simp [List.length_eraseIdx, List.length_set, hi, hiv]
          omega
        obtain ⟨hc, hs⟩ := ih (vs.eraseIdx i) _ _ h hlen'
        have hel : (vs.eraseIdx i).length = vs.length - 1 := by
          rw [List.length_eraseIdx, if_pos hiv]
        constructor
        · rw [List.length_append] at hc
          simp at hc
          omega
        · rw [triSum_append] at hs
          have herase := shoelace_erase vs i hiv
          have ht : triArea2 (vs.getD (prevIdx vs.length i) default,
              vs.getD i default, vs.getD (nextIdx vs.length i) default)
            = area2 (vs.getD (prevIdx vs.length i) default)
                (vs.getD i default)
                (vs.getD (nextIdx vs.length i) default) := rfl
          rw [ht] at hs
          omega
    · rw [if_neg h3] at h
      have h1 : vs = vs2 ∧ acc = acc2 := by
        have := Option.some.inj h
        exact ⟨(Prod.mk.injEq _ _ _ _ ▸ this).1, (Prod.mk.injEq _ _ _ _ ▸ this).2⟩
      obtain ⟨hv, ha⟩ := h1
      rw [hv, ha]
      exact ⟨rfl, rfl⟩



theorem earsInit_length (vs1 : List Pt) :
    (earsInit vs1).length = vs1.length := by
  simp [earsInit]

theorem triangulate_destruct (vs : List Pt) (ts : List Tri)
    (h : triangulate vs = some ts) :
    ∃ vs1 acc1 acc2 a b c,
      (if vs.length = 0 then (vs, ([] : List Tri))
        else prePassFrom (vs.length - 1) vs []) = (vs1, acc1) ∧
      earLoop vs1 (earsInit vs1) acc1 = some ([a, b, c], acc2) ∧
      ts = acc2 ++ [(a, b, c)] := by
  unfold triangulate at h
  rcases hpp : (if vs.length = 0 then (vs, ([] : List Tri))
      else prePassFrom (vs.length - 1) vs []) with ⟨vs1, acc1⟩
  rw [hpp] at h
  dsimp only at h
  cases hel : earLoop vs1 (earsInit vs1) acc1 with
  | none =>
    rw [hel] at h
    exact Option.noConfusion h
  | some r =>
    rcases r with ⟨vs2, acc2⟩
    rw [hel] at h
    rcases vs2 with _ | ⟨a, _ | ⟨b, _ | ⟨c, _ | ⟨d, rest⟩⟩⟩⟩ <;>
      simp only [] at h
    · exact Option.noConfusion h
    · exact Option.noConfusion h
    · exact Option.noConfusion h
    · exact ⟨vs1, acc1, acc2, a, b, c, rfl, hel, (Option.some.inj h).symm⟩
    · exact Option.noConfusion h

/-- Claim C9: whenever triangulate runs to completion on a polygon
with n vertices, it invokes the callback exactly n - 2 times (stated
additively: the number of reported triangles plus 2 equals n). -/
theorem triangulation_count (vs : List Pt) (ts : List Tri)
    (h : triangulate vs = some ts) : ts.length + 2 = vs.length := by
  obtain ⟨vs1, acc1, acc2, a, b, c, hpp, hel, hts⟩ :=
    triangulate_destruct vs ts h
  by_cases hz : vs.length = 0
  · rw [if_pos hz] at hpp
    have hv1 : vs1 = vs := (Prod.mk.injEq _ _ _ _ ▸ hpp).1.symm
    have hvnil : vs = [] := List.length_eq_zero.mp hz
    have hacc1 : acc1 = [] := ((Prod.mk.injEq _ _ _ _ ▸ hpp).2).symm
    rw [hv1, hvnil, hacc1] at hel
    simp [earLoop, earLoopF, earsInit] at hel
  · rw [if_neg hz] at hpp
    have hpre := prePassFrom_count (vs.length - 1) vs [] (by omega)
    rw [hpp] at hpre
    have hinv := earLoopF_inv ((earsInit vs1).length + 1) vs1 (earsInit vs1)
      acc1 [a, b, c] acc2 hel (earsInit_length vs1)
    have hts_len : ts.length = acc2.length + 1 := by
      rw [hts]
      simp
    have hpre' : vs1.length + acc1.length = vs.length := by
      simpa using hpre
    have hinv' : 3 + acc2.length = vs1.length + acc1.length := by
      simpa using hinv.1
    omega

/-- Claim C3 as amended: whenever triangulate runs to completion, the
sum of the doubled signed areas of the reported triangles equals the
polygon's signed doubled area exactly; the equality of (integer)
areas claimed originally fails because each triangle's area is
truncated separately by the division by two. -/
theorem triangulation_area_conservation (vs : List Pt) (ts : List Tri)
    (h : triangulate vs = some ts) :
    triSum ts = signedDoubleArea vs := by
  obtain ⟨vs1, acc1, acc2, a, b, c, hpp, hel, hts⟩ :=
    triangulate_destruct vs ts h
  rw [signedDoubleArea_eq_shoelaceD]
  by_cases hz : vs.length = 0
  · rw [if_pos hz] at hpp
    have hv1 : vs1 = vs := (Prod.mk.injEq _ _ _ _ ▸ hpp).1.symm
    have hvnil : vs = [] := List.length_eq_zero.mp hz
    have hacc1 : acc1 = [] := ((Prod.mk.injEq _ _ _ _ ▸ hpp).2).symm
    rw [hv1, hvnil, hacc1] at hel
    simp [earLoop, earLoopF, earsInit] at hel
  · rw [if_neg hz] at hpp
    have hpre := prePassFrom_sum (vs.length - 1) vs [] (by omega)
    rw [hpp] at hpre
    have hinv := earLoopF_inv ((earsInit vs1).length + 1) vs1 (earsInit vs1)
      acc1 [a, b, c] acc2 hel (earsInit_length vs1)
    have hfin : triSum ts = triSum acc2 + area2 a b c := by
      rw [hts, triSum_append]
      rfl
    have htri : shoelaceD [a, b, c] = area2 a b c := shoelace_tri a b c
    have hpre' : triSum acc1 + shoelaceD vs1 = shoelaceD vs := by
      have hempty : triSum ([] : List Tri) = 0 := rfl
      have := hpre
      dsimp only at this
      omega
    have hinv' : triSum acc2 + shoelaceD [a, b, c]
        = triSum acc1 + shoelaceD vs1 := hinv.2
    omega

theorem triangulation_count_witness :
    triangulate [⟨0, 0⟩, ⟨1, 0⟩, ⟨1, 1⟩, ⟨0, 1⟩]
        = some [(⟨1, 1⟩, ⟨0, 1⟩, ⟨0, 0⟩), (⟨0, 0⟩, ⟨1, 0⟩, ⟨1, 1⟩)] ∧
    ([(⟨1, 1⟩, ⟨0, 1⟩, ⟨0, 0⟩), (⟨0, 0⟩, ⟨1, 0⟩, ⟨1, 1⟩)] :
        List Tri).length + 2
      = ([⟨0, 0⟩, ⟨1, 0⟩, ⟨1, 1⟩, ⟨0, 1⟩] : List Pt).length :=
  ⟨by decide, triangulation_count _ _ (by decide)⟩

theorem triangulation_area_conservation_witness :
    triangulate [⟨-2, -2⟩, ⟨2, -2⟩, ⟨0, 0⟩, ⟨2, 2⟩, ⟨-2, 2⟩]
        = some [(⟨0, 0⟩, ⟨2, 2⟩, ⟨-2, 2⟩), (⟨0, 0⟩, ⟨-2, 2⟩, ⟨-2, -2⟩),
            (⟨-2, -2⟩, ⟨2, -2⟩, ⟨0, 0⟩)] ∧
    triSum [(⟨0, 0⟩, ⟨2, 2⟩, ⟨-2, 2⟩), (⟨0, 0⟩, ⟨-2, 2⟩, ⟨-2, -2⟩),
        (⟨-2, -2⟩, ⟨2, -2⟩, ⟨0, 0⟩)]
      = signedDoubleArea [⟨-2, -2⟩, ⟨2, -2⟩, ⟨0, 0⟩, ⟨2, 2⟩, ⟨-2, 2⟩] :=
  ⟨by decide, triangulation_area_conservation _ _ (by decide)⟩

end Fart
